import Mathlib

/-!
Shallow embedding of `scripts/generate_langs.py`.

The script fetches a GitHub user's repositories, aggregates language usage
two ways (by repository count and commit-weighted), truncates each tally to
the top `TOP_N` entries plus an "Other" bucket, and renders two donut charts.

Modelling conventions used throughout:
* Python `dict`s keyed by language are modelled as insertion-ordered
  association lists `List (String × Int)`; `d[k] = d.get(k, 0) + v` is `bump`.
* Python ints are `Int`; the float arithmetic of the renderer is modelled
  exactly over `ℚ`, with angles kept in units of π (the source's
  `delta = frac * 2 * math.pi` becomes `deltaOverPi = frac * 2`).
* Network effects are explicit: an HTTP response is a record, and an
  exception raised by the HTTP call itself is the `Except.error` case.
* String manipulation (`str.split`, `in`, `int(...)`) is implemented by
  structurally recursive functions over `List Char` so that concrete
  evaluations reduce inside the kernel.
-/

/-- `TOP_N = 5` from the script's config block. -/
def TOP_N : Nat := 5

/-- `EXCLUDED_LANGUAGES = set()` — kept empty by default. -/
def EXCLUDED_LANGUAGES : List String := []

/-- `OTHER_COLOR = "#6b7280"`. -/
def OTHER_COLOR : String := "#6b7280"

/-- `REPO_COLORS` — palette of the left / repo pie. -/
def REPO_COLORS : List String :=
  ["#f97316", "#eab308", "#22c55e", "#fb7185", "#a78bfa"]

/-- `ACTIVITY_COLORS` — palette of the right / activity pie. -/
def ACTIVITY_COLORS : List String :=
  ["#06b6d4", "#6366f1", "#00c2a8", "#ff6b6b", "#ffd166"]

/-- A repository node as returned by the GraphQL query.
`primaryLanguage`: `some s` models a non-null `{"name": s}` object; `none`
models `null` (an object lacking a `"name"` behaves identically in the
script, so it is folded into `none`).  `languages` lists the names of the
nodes of `languages.edges` in order. -/
structure Repo where
  name : String
  primaryLanguage : Option String
  languages : List String
deriving DecidableEq

/-- `language_for_repo`: prefer a truthy `primaryLanguage.name` (Python
truthiness: the empty string falls through), else the first entry of the
`languages` edge list, else `None`. -/
def language_for_repo (repo : Repo) : Option String :=
  match repo.primaryLanguage with
  | some n => if n ≠ "" then some n else repo.languages.head?
  | none => repo.languages.head?

/-- One step of `counts[lang] = counts.get(lang, 0) + v` on an
insertion-ordered dict rendered as an association list. -/
def bump (counts : List (String × Int)) (lang : String) (v : Int) :
    List (String × Int) :=
  if counts.any (fun p => p.1 = lang) then
    counts.map (fun p => if p.1 = lang then (p.1, p.2 + v) else p)
  else counts ++ [(lang, v)]

/-- `languages_by_repo_count`: count repositories per resolved language,
skipping repositories whose language is falsy (`None` or `""`) or excluded. -/
def languages_by_repo_count (repos : List Repo) : List (String × Int) :=
  repos.foldl
    (fun counts r =>
      match language_for_repo r with
      | none => counts
      | some l =>
        if l = "" then counts
        else if l ∈ EXCLUDED_LANGUAGES then counts
        else bump counts l 1)
    []

/-- Loop body of `commit_weighted_languages`.  The commit fetch for a
repository name is a parameter `fetch`; its `Except.error` case models a
Python exception escaping `fetch_commit_count`, which the loop does not
catch, so it aborts the whole fold. -/
def commit_weighted_go (fetch : String → Except Unit Int)
    (weighted : List (String × Int)) :
    List Repo → Except Unit (List (String × Int))
  | [] => .ok weighted
  | r :: rest =>
    match language_for_repo r with
    | none => commit_weighted_go fetch weighted rest
    | some l =>
      if l = "" then commit_weighted_go fetch weighted rest
      else if l ∈ EXCLUDED_LANGUAGES then commit_weighted_go fetch weighted rest
      else
        match fetch r.name with
        | .error e => .error e
        | .ok c => commit_weighted_go fetch (bump weighted l c) rest

/-- `commit_weighted_languages`: add each repository's commit count to the
tally of its resolved language; unresolvable repositories are skipped before
any fetch happens. -/
def commit_weighted_languages (fetch : String → Except Unit Int)
    (repos : List Repo) : Except Unit (List (String × Int)) :=
  commit_weighted_go fetch [] repos

/-- Insertion step of the stable descending-by-value sort: an element is
placed after every earlier element of strictly greater value and before the
first element of smaller-or-equal value, which preserves the original order
of ties. -/
def insertDesc (x : String × Int) : List (String × Int) → List (String × Int)
  | [] => [x]
  | y :: ys => if x.2 < y.2 then y :: insertDesc x ys else x :: y :: ys

/-- `sorted(data.items(), key=lambda x: x[1], reverse=True)` — Python's
stable sort, descending by value, rendered as a stable insertion sort. -/
def sortDesc : List (String × Int) → List (String × Int)
  | [] => []
  | x :: xs => insertDesc x (sortDesc xs)

/-- `top_n_with_other`: sort descending by value, keep the first `TOP_N`
entries, and append `("Other", s)` where `s` is the sum of the remaining
values, but only when `s > 0`.  The source's locals `items`, `top`, `other`
are inlined. -/
def top_n_with_other (data : List (String × Int)) : List (String × Int) :=
  if 0 < (((sortDesc data).drop TOP_N).map Prod.snd).sum then
    (sortDesc data).take TOP_N
      ++ [("Other", (((sortDesc data).drop TOP_N).map Prod.snd).sum)]
  else
    (sortDesc data).take TOP_N

/-- Index of the first occurrence of `sep` as a contiguous sublist, if any. -/
def findSub (sep : List Char) : List Char → Option Nat
  | [] => none
  | c :: rest =>
    if sep.isPrefixOf (c :: rest) then some 0
    else (findSub sep rest).map (· + 1)

/-- Fuelled worker for Python `str.split(sep)` with a non-empty separator.
Each recursive step consumes at least one character, so fuel
`length + 1` is always sufficient. -/
def pySplitFuel (sep : List Char) : Nat → List Char → List (List Char)
  | 0, s => [s]
  | fuel + 1, s =>
    match findSub sep s with
    | none => [s]
    | some i => s.take i :: pySplitFuel sep fuel (s.drop (i + sep.length))

/-- Python `s.split(sep)` for the non-empty separators used by the script. -/
def pySplit (s sep : String) : List String :=
  (pySplitFuel sep.data (s.data.length + 1) s.data).map List.asString

/-- Python `needle in haystack` (substring containment). -/
def pyContains (haystack needle : String) : Bool :=
  needle = "" || (findSub needle.data haystack.data).isSome

/-- Accumulate a decimal value, failing on the first non-digit character;
`none` on the empty string. -/
def digitsVal? (l : List Char) : Option Nat :=
  if l.isEmpty then none
  else
    l.foldl
      (fun acc c =>
        match acc with
        | none => none
        | some n => if c.isDigit then some (n * 10 + (c.toNat - 48)) else none)
      (some 0)

/-- Python `int(s)`: optional surrounding spaces, optional sign, decimal
digits; `none` models a raised `ValueError`.  (Exotic accepted forms such as
digit-group underscores or non-space whitespace are not modelled; the
script only ever parses digit runs taken from a URL.) -/
def pyInt? (s : String) : Option Int :=
  match (s.data.dropWhile (fun c => c = ' ')).reverse.dropWhile (fun c => c = ' ') |>.reverse with
  | '-' :: ds => (digitsVal? ds).map (fun n => -(n : Int))
  | '+' :: ds => (digitsVal? ds).map (fun n => (n : Int))
  | ds => (digitsVal? ds).map (fun n => (n : Int))

/-- The literal `rel="last"` searched for in each part of the Link header. -/
def relLast : String := "rel=\"last\""

/-- `part.split("page=")[-1].split(">")[0]` — the candidate page number text
extracted from one Link-header part. -/
def pageField (part : String) : String :=
  ((pySplit ((pySplit part "page=").getLastD "") ">").headD "")

/-- The `for part in r.headers["Link"].split(",")` loop: on the first part
containing `rel="last"`, return the parsed page number, or 1 when `int`
raises; if no part matches, fall through to `return 1`. -/
def linkLoop : List String → Int
  | [] => 1
  | part :: rest =>
    if pyContains part relLast then
      match pyInt? (pageField part) with
      | some n => n
      | none => 1
    else linkLoop rest

/-- An HTTP response of the commit-listing endpoint.  `link` is the `Link`
header when present; `body` is the result of `r.json()` abstracted to the
commit list it yields (`Except.error` models `r.json()` raising, which the
script catches). -/
structure HttpResponse where
  status_code : Int
  link : Option String
  body : Except Unit (List Unit)

/-- Body of `fetch_commit_count` once a response object exists: non-200 →
fallback 1; no Link header → length of the JSON page (1 when `r.json()`
raises); otherwise parse the Link header. -/
def fetch_commit_count_resp (r : HttpResponse) : Int :=
  if r.status_code ≠ 200 then 1
  else
    match r.link with
    | none =>
      match r.body with
      | .ok page => (page.length : Int)
      | .error _ => 1
    | some l => linkLoop (pySplit l ",")

/-- `fetch_commit_count`: the argument is the outcome of
`requests.get(...)`.  The script wraps nothing around that call, so an
exception raised by it (`Except.error`) propagates out of the function. -/
def fetch_commit_count (resp : Except Unit HttpResponse) : Except Unit Int :=
  match resp with
  | .error e => .error e
  | .ok r => .ok (fetch_commit_count_resp r)

/-- `Except.isOk`-style discriminator, kept local to the development. -/
def exceptOk {ε α : Type} : Except ε α → Bool
  | .ok _ => true
  | .error _ => false

/-- `total = sum(v for _, v in data) or 1`: Python `or` replaces a falsy
(zero) total by 1. -/
def pyTotal (data : List (String × ℚ)) : ℚ :=
  if (data.map Prod.snd).sum = 0 then 1 else (data.map Prod.snd).sum

/-- `colors[i % len(colors)]`.  (An empty palette would raise in Python;
both call sites pass five-colour palettes.) -/
def colorAt (colors : List String) (i : Nat) : String :=
  colors.getD (i % colors.length) ""

/-- Python `round(q)`: round half to even (banker's rounding). -/
def pyRound (q : ℚ) : Int :=
  if q - ⌊q⌋ < 1 / 2 then ⌊q⌋
  else if 1 / 2 < q - ⌊q⌋ then ⌊q⌋ + 1
  else if ⌊q⌋ % 2 = 0 then ⌊q⌋ else ⌊q⌋ + 1

/-- One slice produced by `pie_paths`.  The SVG path string of the source is
abstracted by the parameters that define it: the angles (in units of π,
so the source's `a = θ·π`), the large-arc flag, and the colour.  `pct` is
the rounded percentage appended to each result tuple. -/
structure Slice where
  label : String
  color : String
  frac : ℚ
  deltaOverPi : ℚ
  a1OverPi : ℚ
  a2OverPi : ℚ
  large : Bool
  pct : Int
deriving DecidableEq

/-- The `for i, (label, value) in enumerate(data)` loop of `pie_paths`,
carrying the running index and start angle.  `large = 1 if delta > math.pi`
becomes `1 < deltaOverPi` in the exact model. -/
def pie_go (colors : List String) (total : ℚ) :
    Nat → ℚ → List (String × ℚ) → List Slice
  | _, _, [] => []
  | i, angle, (label, value) :: rest =>
    { label := label
      color := if label = "Other" then OTHER_COLOR else colorAt colors i
      frac := value / total
      deltaOverPi := value / total * 2
      a1OverPi := angle
      a2OverPi := angle + value / total * 2
      large := decide (1 < value / total * 2)
      pct := pyRound (value / total * 100) }
      :: pie_go colors total (i + 1) (angle + value / total * 2) rest

/-- `pie_paths`: slices laid out consecutively from twelve o'clock
(start angle `-π/2`, i.e. `-1/2` in units of π). -/
def pie_paths (data : List (String × ℚ)) (colors : List String) : List Slice :=
  pie_go colors (pyTotal data) 0 (-(1 / 2) : ℚ) data

/-! ### Helper lemmas about the embedded operations -/

/-- Inserting an element with `insertDesc` yields a permutation of consing it. -/
theorem insertDesc_perm (x : String × Int) (l : List (String × Int)) :
    List.Perm (insertDesc x l) (x :: l) := by
  induction l with
  | nil => simp [insertDesc]
  | cons y ys ih =>
    by_cases hxy : x.2 < y.2
    · simp only [insertDesc, if_pos hxy]
      exact (ih.cons y).trans (List.Perm.swap x y ys)
    · simp only [insertDesc, if_neg hxy]
      exact List.Perm.refl _

/-- `sortDesc` permutes its input. -/
theorem sortDesc_perm (l : List (String × Int)) :
    List.Perm (sortDesc l) l := by
  induction l with
  | nil => simp [sortDesc]
  | cons x xs ih =>
    exact (insertDesc_perm x (sortDesc xs)).trans (ih.cons x)

/-- `insertDesc` preserves the descending-by-value pairwise invariant. -/
theorem insertDesc_pairwise (x : String × Int) (l : List (String × Int))
    (h : l.Pairwise (fun a b => b.2 ≤ a.2)) :
    (insertDesc x l).Pairwise (fun a b => b.2 ≤ a.2) := by
  induction l with
  | nil => simp [insertDesc]
  | cons y ys ih =>
    rw [List.pairwise_cons] at h
    obtain ⟨hy, hys⟩ := h
    by_cases hxy : x.2 < y.2
    · simp only [insertDesc, if_pos hxy]
      rw [List.pairwise_cons]
      refine ⟨?_, ih hys⟩
      intro z hz
      have hz' : z = x ∨ z ∈ ys := by
        have := (insertDesc_perm x ys).mem_iff.mp hz
        simpa using this
      rcases hz' with rfl | hz'
      · exact le_of_lt hxy
      · exact hy z hz'
    · simp only [insertDesc, if_neg hxy]
      rw [List.pairwise_cons]
      refine ⟨?_, List.pairwise_cons.mpr ⟨hy, hys⟩⟩
      intro z hz
      rcases List.mem_cons.mp hz with rfl | hz'
      · exact not_lt.mp hxy
      · exact le_trans (hy z hz') (not_lt.mp hxy)

/-- The output of `sortDesc` is descending by value. -/
theorem sortDesc_pairwise (l : List (String × Int)) :
    (sortDesc l).Pairwise (fun a b => b.2 ≤ a.2) := by
  induction l with
  | nil => simp [sortDesc]
  | cons x xs ih => exact insertDesc_pairwise x (sortDesc xs) ih

/-- If no input key is labeled `"Other"`, neither is any entry of the
sorted prefix kept by `top_n_with_other`. -/
theorem take_sortDesc_no_other {data : List (String × Int)}
    (hother : "Other" ∉ data.map Prod.fst) :
    ∀ e ∈ (sortDesc data).take TOP_N, e.1 ≠ "Other" := by
  intro e he heq
  apply hother
  have h1 : e ∈ sortDesc data := List.take_subset _ _ he
  have h2 : e ∈ data := (sortDesc_perm data).mem_iff.mp h1
  exact heq ▸ List.mem_map_of_mem Prod.fst h2

/-- `takeWhile` runs past a block of elements that all satisfy `p`. -/
theorem takeWhile_append_all {α : Type} (p : α → Bool) (l₁ l₂ : List α)
    (h : ∀ x ∈ l₁, p x = true) :
    (l₁ ++ l₂).takeWhile p = l₁ ++ l₂.takeWhile p := by
  induction l₁ with
  | nil => simp
  | cons a l ih =>
    simp [List.takeWhile_cons, h a (List.mem_cons_self a l),
      ih (fun x hx => h x (List.mem_cons_of_mem a hx))]

/-- `takeWhile` keeps a list all of whose elements satisfy `p`. -/
theorem takeWhile_all {α : Type} (p : α → Bool) (l : List α)
    (h : ∀ x ∈ l, p x = true) : l.takeWhile p = l := by
  have := takeWhile_append_all p l [] h
  simpa using this

/-- The Link-header loop falls through to 1 when no part mentions
`rel="last"`. -/
theorem linkLoop_of_all_not {parts : List String}
    (h : ∀ part ∈ parts, pyContains part relLast = false) :
    linkLoop parts = 1 := by
  induction parts with
  | nil => rfl
  | cons part rest ih =>
    simp [linkLoop, h part (List.mem_cons_self part rest),
      ih (fun p hp => h p (List.mem_cons_of_mem part hp))]

/-- The Link-header loop returns the page number parsed from the first part
mentioning `rel="last"`, when that parse succeeds. -/
theorem linkLoop_find? {parts : List String} {part : String}
    (hfind : parts.find? (fun p => pyContains p relLast) = some part)
    {n : Int} (hparse : pyInt? (pageField part) = some n) :
    linkLoop parts = n := by
  induction parts with
  | nil => simp at hfind
  | cons q rest ih =>
    by_cases hq : pyContains q relLast = true
    · rw [List.find?_cons_of_pos (p := fun s => pyContains s relLast) rest hq] at hfind
      obtain rfl : q = part := by simpa using hfind
      simp [linkLoop, hq, hparse]
    · rw [List.find?_cons_of_neg (p := fun s => pyContains s relLast) rest hq] at hfind
      simp [linkLoop, hq, ih hfind]

/-- The Link-header loop degrades to 1 when the page number of the first
part mentioning `rel="last"` cannot be parsed (`int` raises). -/
theorem linkLoop_find?_none {parts : List String} {part : String}
    (hfind : parts.find? (fun p => pyContains p relLast) = some part)
    (hparse : pyInt? (pageField part) = none) :
    linkLoop parts = 1 := by
  induction parts with
  | nil => simp at hfind
  | cons q rest ih =>
    by_cases hq : pyContains q relLast = true
    · rw [List.find?_cons_of_pos (p := fun s => pyContains s relLast) rest hq] at hfind
      obtain rfl : q = part := by simpa using hfind
      simp [linkLoop, hq, hparse]
    · rw [List.find?_cons_of_neg (p := fun s => pyContains s relLast) rest hq] at hfind
      simp [linkLoop, hq, ih hfind]

/-- A repository with no resolvable language is a no-op anywhere inside the
commit-weighted fold, for any fetch behaviour. -/
theorem commit_weighted_go_skip {fetch : String → Except Unit Int} {r : Repo}
    (hr : language_for_repo r = none) (post : List Repo) :
    ∀ (pre : List Repo) (acc : List (String × Int)),
      commit_weighted_go fetch acc (pre ++ r :: post)
        = commit_weighted_go fetch acc (pre ++ post) := by
  intro pre
  induction pre with
  | nil =>
    intro acc
    simp [commit_weighted_go, hr]
  | cons p ps ih =>
    intro acc
    simp only [List.cons_append, commit_weighted_go]
    cases hp : language_for_repo p with
    | none => exact ih acc
    | some l =>
      by_cases hl : l = ""
      · simp only [if_pos hl]
        exact ih acc
      · simp only [if_neg hl, EXCLUDED_LANGUAGES, List.not_mem_nil, if_neg]
        cases hf : fetch p.name with
        | error e => rfl
        | ok c => exact ih (bump acc l c)

/-- A repository with no resolvable language is a no-op anywhere inside the
by-repository-count fold. -/
theorem languages_by_repo_count_skip {r : Repo}
    (hr : language_for_repo r = none) (pre post : List Repo) :
    languages_by_repo_count (pre ++ r :: post)
      = languages_by_repo_count (pre ++ post) := by
  simp [languages_by_repo_count, List.foldl_append, hr]

/-- If every fetch yields a response, the commit-weighted fold completes. -/
theorem commit_go_all_ok (fetch : String → Except Unit Int)
    (h : ∀ name, exceptOk (fetch name) = true) :
    ∀ (repos : List Repo) (acc : List (String × Int)),
      exceptOk (commit_weighted_go fetch acc repos) = true := by
  intro repos
  induction repos with
  | nil => intro acc; rfl
  | cons r rest ih =>
    intro acc
    simp only [commit_weighted_go]
    cases hl : language_for_repo r with
    | none => exact ih acc
    | some l =>
      by_cases he : l = ""
      · simp only [if_pos he]
        exact ih acc
      · simp only [if_neg he, EXCLUDED_LANGUAGES, List.not_mem_nil, if_neg]
        cases hf : fetch r.name with
        | error e =>
          have := h r.name
          rw [hf] at this
          simp [exceptOk] at this
        | ok c => exact ih (bump acc l c)

/-- Every slice of `pie_go` comes from an input pair, with its fields
computed from that pair's value and the fixed total. -/
theorem pie_go_mem {colors : List String} {total : ℚ} :
    ∀ {l : List (String × ℚ)} {i : Nat} {a : ℚ} {s : Slice},
      s ∈ pie_go colors total i a l →
      ∃ p ∈ l, s.frac = p.2 / total ∧ s.deltaOverPi = p.2 / total * 2 ∧
        s.large = decide (1 < p.2 / total * 2) ∧
        s.pct = pyRound (p.2 / total * 100) := by
  intro l
  induction l with
  | nil => intro i a s hs; simp [pie_go] at hs
  | cons hd rest ih =>
    intro i a s hs
    obtain ⟨label, value⟩ := hd
    rw [pie_go] at hs
    rcases List.mem_cons.mp hs with rfl | hs
    · exact ⟨(label, value), List.mem_cons_self _ _, rfl, rfl, rfl, rfl⟩
    · obtain ⟨p, hp, h1, h2, h3, h4⟩ := ih hs
      exact ⟨p, List.mem_cons_of_mem _ hp, h1, h2, h3, h4⟩

/-- The slice at index `i` of `pie_go` carries the rounded percentage of the
input pair at index `i`. -/
theorem pie_go_pct (colors : List String) (total : ℚ) :
    ∀ (l : List (String × ℚ)) (i0 : Nat) (a : ℚ) (i : Nat) (s : Slice)
      (p : String × ℚ),
      (pie_go colors total i0 a l)[i]? = some s → l[i]? = some p →
      s.pct = pyRound (p.2 / total * 100) := by
  intro l
  induction l with
  | nil => intro i0 a i s p hs hp; simp [pie_go] at hs
  | cons hd rest ih =>
    intro i0 a i s p hs hp
    obtain ⟨label, value⟩ := hd
    rw [pie_go] at hs
    cases i with
    | zero =>
      simp only [List.getElem?_cons_zero, Option.some.injEq] at hs hp
      rw [← hs, ← hp]
    | succ n =>
      simp only [List.getElem?_cons_succ] at hs hp
      exact ih (i0 + 1) _ n s p hs hp

/-- The spans (in units of π) of the slices of `pie_go` sum to
`(Σ values) / total * 2`. -/
theorem pie_go_delta_sum (colors : List String) (total : ℚ) :
    ∀ (l : List (String × ℚ)) (i : Nat) (a : ℚ),
      ((pie_go colors total i a l).map Slice.deltaOverPi).sum
        = (l.map Prod.snd).sum / total * 2 := by
  intro l
  induction l with
  | nil => intro i a; simp [pie_go]
  | cons hd rest ih =>
    intro i a
    obtain ⟨label, value⟩ := hd
    rw [pie_go]
    simp only [List.map_cons, List.sum_cons, ih (i + 1) _]
    rw [add_div]
    ring

/-- Casting a rational span sum to the reals and scaling by π. -/
theorem sum_map_cast_mul_pi (l : List Slice) :
    (l.map (fun s => (s.deltaOverPi : ℝ) * Real.pi)).sum
      = (((l.map Slice.deltaOverPi).sum : ℚ) : ℝ) * Real.pi := by
  induction l with
  | nil => simp
  | cons s rest ih =>
    simp only [List.map_cons, List.sum_cons, ih]
    push_cast
    ring

/-- A list of non-negative rationals with zero sum is all zeros. -/
theorem sum_zero_all_zero {l : List ℚ} (h0 : ∀ x ∈ l, 0 ≤ x)
    (hs : l.sum = 0) : ∀ x ∈ l, x = 0 := by
  induction l with
  | nil => simp
  | cons a rest ih =>
    rw [List.sum_cons] at hs
    have ha : 0 ≤ a := h0 a (List.mem_cons_self a rest)
    have hrest : 0 ≤ rest.sum :=
      List.sum_nonneg (fun x hx => h0 x (List.mem_cons_of_mem a hx))
    have ha0 : a = 0 := by linarith
    have hsum0 : rest.sum = 0 := by linarith
    intro x hx
    rcases List.mem_cons.mp hx with rfl | hx'
    · exact ha0
    · exact ih (fun y hy => h0 y (List.mem_cons_of_mem a hy)) hsum0 x hx'

/-- `pyRound` rounds to a nearest integer: the error is at most one half. -/
theorem pyRound_nearest (q : ℚ) : |(pyRound q : ℚ) - q| ≤ 1 / 2 := by
  have h1 : (⌊q⌋ : ℚ) ≤ q := Int.floor_le q
  have h2 : q < ⌊q⌋ + 1 := Int.lt_floor_add_one q
  rw [pyRound]
  split_ifs with ha hb hc <;> (rw [abs_le]; push_cast; constructor <;> linarith)

/-! ### Claims about `top_n_with_other` and the aggregation -/

/-- Claim C1, counterexample: for the tally whose single key is itself the
string "Other", the output contains an entry labeled "Other" although the
remainder beyond rank `TOP_N` sums to zero, refuting the claimed
equivalence as stated over every tally. -/
theorem c1_counterexample :
    ¬ (("Other" ∈ (top_n_with_other [("Other", (3 : Int))]).map Prod.fst) ↔
        0 < (((sortDesc [("Other", (3 : Int))]).drop TOP_N).map Prod.snd).sum) := by
  decide

/-- Claim C1 (amended: provided no input key is itself labeled "Other"):
the output of `top_n_with_other` has at most `TOP_N + 1` entries; an entry
labeled "Other" is present exactly when the values beyond rank `TOP_N` of
the sorted tally have strictly positive sum, and such an entry carries
exactly that sum. -/
theorem c1_top_n_with_other_other_bucket (data : List (String × Int))
    (hother : "Other" ∉ data.map Prod.fst) :
    (top_n_with_other data).length ≤ TOP_N + 1 ∧
    ("Other" ∈ (top_n_with_other data).map Prod.fst ↔
      0 < (((sortDesc data).drop TOP_N).map Prod.snd).sum) ∧
    (∀ v : Int, ("Other", v) ∈ top_n_with_other data →
      v = (((sortDesc data).drop TOP_N).map Prod.snd).sum) := by
  have hlab := take_sortDesc_no_other hother
  unfold top_n_with_other
  by_cases h : 0 < (((sortDesc data).drop TOP_N).map Prod.snd).sum
  · rw [if_pos h]
    refine ⟨?_, ⟨fun _ => h, fun _ => ?_⟩, ?_⟩
    · rw [List.length_append, List.length_take]
      simp only [List.length_singleton]
      omega
    · simp
    · intro v hv
      rcases List.mem_append.mp hv with hv | hv
      · exact absurd rfl (hlab _ hv)
      · simpa using hv
  · rw [if_neg h]
    refine ⟨?_, ⟨fun hmem => ?_, fun hpos => absurd hpos h⟩, ?_⟩
    · rw [List.length_take]
      omega
    · rw [List.mem_map] at hmem
      obtain ⟨e, he, heq⟩ := hmem
      exact absurd heq (hlab e he)
    · intro v hv
      exact absurd rfl (hlab _ hv)

/-- Claim C1, witness: the spec's worked example (six languages, remainder
Ruby:1) instantiates the amended theorem. -/
theorem c1_witness :
    "Other" ∉ ([("Go", 12), ("Rust", 7), ("Python", 3), ("TS", 2), ("C", 1),
        ("Ruby", 1)] : List (String × Int)).map Prod.fst ∧
    (top_n_with_other [("Go", 12), ("Rust", 7), ("Python", 3), ("TS", 2),
        ("C", 1), ("Ruby", 1)]).length ≤ TOP_N + 1 ∧
    ("Other" ∈ (top_n_with_other [("Go", 12), ("Rust", 7), ("Python", 3),
        ("TS", 2), ("C", 1), ("Ruby", 1)]).map Prod.fst ↔
      0 < (((sortDesc [("Go", 12), ("Rust", 7), ("Python", 3), ("TS", 2),
        ("C", 1), ("Ruby", 1)]).drop TOP_N).map Prod.snd).sum) :=
  ⟨by decide,
    (c1_top_n_with_other_other_bucket _ (by decide)).1,
    (c1_top_n_with_other_other_bucket _ (by decide)).2.1⟩

/-- Claim C5, counterexample: when the input tally itself contains the key
"Other" with the largest value, the output has an "Other" entry in first
position, not last, refuting the claim as stated over every tally. -/
theorem c5_counterexample :
    ("Other", (10 : Int)) ∈ top_n_with_other [("Other", 10), ("A", 1)] ∧
    (top_n_with_other [("Other", (10 : Int)), ("A", 1)]).getLast?
      = some ("A", 1) := by
  decide

/-- Claim C5 (amended: provided no input key is itself labeled "Other"):
the output of `top_n_with_other` on a non-empty tally is in final order —
the entries before any "Other" entry are pairwise descending by value, and
an "Other" entry, when present, is the last element regardless of its
magnitude. -/
theorem c5_top_n_with_other_order (data : List (String × Int))
    (_hne : data ≠ []) (hother : "Other" ∉ data.map Prod.fst) :
    ((top_n_with_other data).takeWhile (fun e => e.1 != "Other")).Pairwise
      (fun a b => b.2 ≤ a.2) ∧
    (∀ v : Int, ("Other", v) ∈ top_n_with_other data →
      (top_n_with_other data).getLast? = some ("Other", v)) := by
  have hlab := take_sortDesc_no_other hother
  have hsorted : ((sortDesc data).take TOP_N).Pairwise (fun a b => b.2 ≤ a.2) :=
    (sortDesc_pairwise data).sublist (List.take_sublist TOP_N (sortDesc data))
  have hptrue : ∀ e ∈ (sortDesc data).take TOP_N,
      (fun e : String × Int => e.1 != "Other") e = true := by
    intro e he
    simpa [bne_iff_ne] using hlab e he
  unfold top_n_with_other
  by_cases h : 0 < (((sortDesc data).drop TOP_N).map Prod.snd).sum
  · rw [if_pos h]
    constructor
    · rw [takeWhile_append_all _ _ _ hptrue]
      simpa [List.takeWhile_cons] using hsorted
    · intro v hv
      rcases List.mem_append.mp hv with hv | hv
      · exact absurd rfl (hlab _ hv)
      · have hv' : ("Other", v)
            = ("Other", (((sortDesc data).drop TOP_N).map Prod.snd).sum) := by
          simpa using hv
        rw [List.getLast?_concat, ← hv']
  · rw [if_neg h]
    constructor
    · rw [takeWhile_all _ _ hptrue]
      exact hsorted
    · intro v hv
      exact absurd rfl (hlab _ hv)

/-- Claim C5, witness: the spec's worked example instantiates the amended
theorem; its appended "Other" entry is last. -/
theorem c5_witness :
    (([("Go", 12), ("Rust", 7), ("Python", 3), ("TS", 2), ("C", 1),
        ("Ruby", 1)] : List (String × Int)) ≠ []) ∧
    ((top_n_with_other [("Go", 12), ("Rust", 7), ("Python", 3), ("TS", 2),
        ("C", 1), ("Ruby", 1)]).takeWhile
        (fun e => e.1 != "Other")).Pairwise (fun a b => b.2 ≤ a.2) ∧
    (top_n_with_other [("Go", 12), ("Rust", 7), ("Python", 3), ("TS", 2),
        ("C", 1), ("Ruby", 1)]).getLast? = some ("Other", 1) :=
  ⟨by decide,
    (c5_top_n_with_other_order _ (by decide) (by decide)).1,
    (c5_top_n_with_other_order _ (by decide) (by decide)).2 1 (by decide)⟩

/-- Claim C10: on a tally with non-negative values, `top_n_with_other`
preserves the total weight — the output values (including any "Other"
bucket) sum to the input values' sum. -/
theorem c10_top_n_with_other_total (data : List (String × Int))
    (hnn : ∀ v ∈ data.map Prod.snd, 0 ≤ v) :
    ((top_n_with_other data).map Prod.snd).sum = (data.map Prod.snd).sum := by
  have hperm : ((sortDesc data).map Prod.snd).sum = (data.map Prod.snd).sum :=
    ((sortDesc_perm data).map Prod.snd).sum_eq
  have hsplit : ((sortDesc data).map Prod.snd).sum
      = (((sortDesc data).take TOP_N).map Prod.snd).sum
        + (((sortDesc data).drop TOP_N).map Prod.snd).sum := by
    conv_lhs => rw [← List.take_append_drop TOP_N (sortDesc data)]
    rw [List.map_append, List.sum_append]
  unfold top_n_with_other
  by_cases h : 0 < (((sortDesc data).drop TOP_N).map Prod.snd).sum
  · rw [if_pos h, List.map_append, List.sum_append, ← hperm, hsplit]
    simp
  · rw [if_neg h]
    have hge : 0 ≤ (((sortDesc data).drop TOP_N).map Prod.snd).sum := by
      apply List.sum_nonneg
      intro v hv
      apply hnn
      rw [List.mem_map] at hv
      obtain ⟨e, he, rfl⟩ := hv
      have he' : e ∈ sortDesc data := List.drop_subset _ _ he
      exact List.mem_map_of_mem _ ((sortDesc_perm data).mem_iff.mp he')
    have h0 : (((sortDesc data).drop TOP_N).map Prod.snd).sum = 0 :=
      le_antisymm (not_lt.mp h) hge
    rw [← hperm, hsplit, h0, add_zero]

/-- Claim C10, witness: the spec's worked example keeps its total of 26. -/
theorem c10_witness :
    (∀ v ∈ ([("Go", 12), ("Rust", 7), ("Python", 3), ("TS", 2), ("C", 1),
        ("Ruby", 1)] : List (String × Int)).map Prod.snd, 0 ≤ v) ∧
    ((top_n_with_other [("Go", 12), ("Rust", 7), ("Python", 3), ("TS", 2),
        ("C", 1), ("Ruby", 1)]).map Prod.snd).sum
      = (([("Go", 12), ("Rust", 7), ("Python", 3), ("TS", 2), ("C", 1),
        ("Ruby", 1)] : List (String × Int)).map Prod.snd).sum :=
  ⟨by decide, c10_top_n_with_other_total _ (by decide)⟩

/-- Claim C2: a repository whose platform primary language is absent (or
has no usable name) and whose per-repository language breakdown is empty
contributes to neither tally: inserting it anywhere leaves both
`languages_by_repo_count` and `commit_weighted_languages` unchanged, for
any fetch behaviour. -/
theorem c2_unresolved_repo_no_contribution (r : Repo) (pre post : List Repo)
    (fetch : String → Except Unit Int)
    (hpl : r.primaryLanguage = none ∨ r.primaryLanguage = some "")
    (hlangs : r.languages = []) :
    languages_by_repo_count (pre ++ r :: post)
      = languages_by_repo_count (pre ++ post) ∧
    commit_weighted_languages fetch (pre ++ r :: post)
      = commit_weighted_languages fetch (pre ++ post) := by
  have hr : language_for_repo r = none := by
    rcases hpl with h | h <;> simp [language_for_repo, h, hlangs]
  exact ⟨languages_by_repo_count_skip hr pre post,
    commit_weighted_go_skip hr post pre []⟩

/-- Claim C2, witness: a language-less repository inserted between two
resolvable ones changes neither tally. -/
theorem c2_witness :
    language_for_repo ⟨"mystery", none, []⟩ = none ∧
    languages_by_repo_count
        ([⟨"a", some "Python", []⟩] ++ ⟨"mystery", none, []⟩ :: [⟨"b", some "Go", []⟩])
      = languages_by_repo_count ([⟨"a", some "Python", []⟩] ++ [⟨"b", some "Go", []⟩]) ∧
    commit_weighted_languages (fun _ => Except.ok 1)
        ([⟨"a", some "Python", []⟩] ++ ⟨"mystery", none, []⟩ :: [⟨"b", some "Go", []⟩])
      = commit_weighted_languages (fun _ => Except.ok 1)
        ([⟨"a", some "Python", []⟩] ++ [⟨"b", some "Go", []⟩]) :=
  ⟨rfl,
    (c2_unresolved_repo_no_contribution ⟨"mystery", none, []⟩
      [⟨"a", some "Python", []⟩] [⟨"b", some "Go", []⟩]
      (fun _ => Except.ok 1) (Or.inl rfl) rfl).1,
    (c2_unresolved_repo_no_contribution ⟨"mystery", none, []⟩
      [⟨"a", some "Python", []⟩] [⟨"b", some "Go", []⟩]
      (fun _ => Except.ok 1) (Or.inl rfl) rfl).2⟩

/-! ### Claims about `fetch_commit_count` -/

/-- Claim C3, counterexample: an exception raised by the HTTP call itself
(`requests.get`) is not caught by `fetch_commit_count`; it propagates
instead of producing the fallback count 1, refuting the claim's coverage of
"any failure of the HTTP call itself". -/
theorem c3_counterexample :
    fetch_commit_count (Except.error ()) = Except.error () ∧
    (Except.error () : Except Unit Int) ≠ Except.ok 1 :=
  ⟨rfl, fun h => Except.noConfusion h⟩

/-- Claim C3 (amended: failures at the response level are non-fatal — a
non-success status yields the fallback count 1, an unparsable last-page
number in the Link header yields 1, an unparsable body with no Link header
yields 1, and a run whose commit fetches all yield responses, however
failing, completes the commit-weighted phase; an exception raised by the
HTTP call itself, by contrast, is not caught and propagates). -/
theorem c3_commit_failures_nonfatal :
    (∀ r : HttpResponse, r.status_code ≠ 200 →
      fetch_commit_count (Except.ok r) = Except.ok 1) ∧
    (∀ (r : HttpResponse) (l part : String), r.status_code = 200 →
      r.link = some l →
      (pySplit l ",").find? (fun s => pyContains s relLast) = some part →
      pyInt? (pageField part) = none →
      fetch_commit_count (Except.ok r) = Except.ok 1) ∧
    (∀ r : HttpResponse, r.status_code = 200 → r.link = none →
      r.body = Except.error () →
      fetch_commit_count (Except.ok r) = Except.ok 1) ∧
    (∀ responses : String → Except Unit HttpResponse,
      (∀ name, exceptOk (responses name) = true) →
      ∀ repos : List Repo,
        exceptOk (commit_weighted_languages
          (fun n => fetch_commit_count (responses n)) repos) = true) ∧
    (∀ e : Unit, fetch_commit_count (Except.error e) = Except.error e) := by
  refine ⟨?_, ?_, ?_, ?_, ?_⟩
  · intro r hr
    show Except.ok (fetch_commit_count_resp r) = Except.ok 1
    rw [fetch_commit_count_resp, if_pos hr]
  · intro r l part h200 hl hfind hparse
    show Except.ok (fetch_commit_count_resp r) = Except.ok 1
    rw [fetch_commit_count_resp, if_neg (by simp [h200]), hl]
    simp only []
    rw [linkLoop_find?_none hfind hparse]
  · intro r h200 hl hb
    show Except.ok (fetch_commit_count_resp r) = Except.ok 1
    rw [fetch_commit_count_resp, if_neg (by simp [h200]), hl, hb]
  · intro responses hok repos
    have hfetch : ∀ name,
        exceptOk (fetch_commit_count (responses name)) = true := by
      intro name
      cases hrn : responses name with
      | error e =>
        have := hok name
        rw [hrn] at this
        simp [exceptOk] at this
      | ok resp => rfl
    exact commit_go_all_ok _ hfetch repos []
  · intro e
    rfl

/-- Claim C3, witness: a 404 commit response degrades to count 1, a 200
response whose `rel="last"` page number is not numeric degrades to count 1,
and a run whose every commit response is a server error still completes
its commit-weighted phase. -/
theorem c3_witness :
    fetch_commit_count (Except.ok ⟨404, none, Except.ok []⟩) = Except.ok 1 ∧
    fetch_commit_count
        (Except.ok ⟨200, some "<u?page=x>; rel=\"last\"", Except.ok []⟩)
      = Except.ok 1 ∧
    exceptOk (commit_weighted_languages
      (fun n => fetch_commit_count
        ((fun _ => Except.ok ⟨500, none, Except.error ()⟩) n))
      [⟨"a", some "Go", []⟩]) = true :=
  ⟨c3_commit_failures_nonfatal.1 ⟨404, none, Except.ok []⟩ (by decide),
    c3_commit_failures_nonfatal.2.1
      ⟨200, some "<u?page=x>; rel=\"last\"", Except.ok []⟩
      "<u?page=x>; rel=\"last\"" "<u?page=x>; rel=\"last\"" rfl rfl
      (by decide) (by decide),
    c3_commit_failures_nonfatal.2.2.2.1
      (fun _ => Except.ok ⟨500, none, Except.error ()⟩) (fun _ => rfl)
      [⟨"a", some "Go", []⟩]⟩

/-- Claim C6, counterexample: a 200 response whose Link header has no
`rel="last"` part (as on the final page of a paginated listing) yields the
fallback 1, not the length 3 of the returned page, refuting the claimed
dichotomy as stated. -/
theorem c6_counterexample :
    fetch_commit_count
        (Except.ok ⟨200, some "<u>; rel=\"next\"", Except.ok [(), (), ()]⟩)
      = Except.ok 1 ∧
    (Except.ok (1 : Int) : Except Unit Int)
      ≠ Except.ok (([(), (), ()] : List Unit).length : Int) :=
  ⟨rfl, fun h => absurd (Except.ok.inj h) (by decide)⟩

/-- Claim C6 (amended): on a 200 response, `fetch_commit_count` returns the
page length when no Link header is present at all and the body parses (1
when the body cannot be parsed); the fallback 1 when a Link header is
present but no part of it mentions `rel="last"`; and, when a `rel="last"`
part is present, the page number parsed from the first such part (1 when
that parse fails). -/
theorem c6_fetch_commit_count_success (r : HttpResponse)
    (h200 : r.status_code = 200) :
    (∀ page, r.link = none → r.body = Except.ok page →
      fetch_commit_count (Except.ok r) = Except.ok (page.length : Int)) ∧
    (∀ l, r.link = some l →
      (pySplit l ",").find? (fun part => pyContains part relLast) = none →
      fetch_commit_count (Except.ok r) = Except.ok 1) ∧
    (∀ l part n, r.link = some l →
      (pySplit l ",").find? (fun part => pyContains part relLast) = some part →
      pyInt? (pageField part) = some n →
      fetch_commit_count (Except.ok r) = Except.ok n) ∧
    (∀ l part, r.link = some l →
      (pySplit l ",").find? (fun part => pyContains part relLast) = some part →
      pyInt? (pageField part) = none →
      fetch_commit_count (Except.ok r) = Except.ok 1) ∧
    (r.link = none → r.body = Except.error () →
      fetch_commit_count (Except.ok r) = Except.ok 1) := by
  have hne : ¬ r.status_code ≠ 200 := by simp [h200]
  refine ⟨?_, ?_, ?_, ?_, ?_⟩
  · intro page hl hb
    show Except.ok (fetch_commit_count_resp r) = _
    rw [fetch_commit_count_resp, if_neg hne, hl, hb]
  · intro l hl hfind
    show Except.ok (fetch_commit_count_resp r) = _
    rw [fetch_commit_count_resp, if_neg hne, hl]
    have hall := List.find?_eq_none.mp hfind
    simp only []
    rw [linkLoop_of_all_not (fun part hp => by
      have := hall part hp
      simpa using this)]
  · intro l part n hl hfind hparse
    show Except.ok (fetch_commit_count_resp r) = _
    rw [fetch_commit_count_resp, if_neg hne, hl]
    simp only []
    rw [linkLoop_find? hfind hparse]
  · intro l part hl hfind hparse
    show Except.ok (fetch_commit_count_resp r) = _
    rw [fetch_commit_count_resp, if_neg hne, hl]
    simp only []
    rw [linkLoop_find?_none hfind hparse]
  · intro hl hb
    show Except.ok (fetch_commit_count_resp r) = _
    rw [fetch_commit_count_resp, if_neg hne, hl, hb]

/-- Claim C6, witness: a realistic two-part Link header whose second part is
the `rel="last"` link with page number 9 yields commit count 9. -/
theorem c6_witness :
    ((⟨200, some "<u?page=2>; rel=\"next\", <u?page=9>; rel=\"last\"",
        Except.ok []⟩ : HttpResponse).status_code = 200) ∧
    pyInt? (pageField " <u?page=9>; rel=\"last\"") = some 9 ∧
    fetch_commit_count
        (Except.ok ⟨200, some "<u?page=2>; rel=\"next\", <u?page=9>; rel=\"last\"",
          Except.ok []⟩)
      = Except.ok 9 :=
  ⟨rfl, by decide,
    (c6_fetch_commit_count_success
      ⟨200, some "<u?page=2>; rel=\"next\", <u?page=9>; rel=\"last\"",
        Except.ok []⟩ rfl).2.2.1
      "<u?page=2>; rel=\"next\", <u?page=9>; rel=\"last\""
      " <u?page=9>; rel=\"last\"" 9 rfl (by decide) (by decide)⟩

/-! ### Claims about `pie_paths` -/

/-- Claim C4, counterexample: a chart whose values sum to zero (here a
single zero-valued entry) has slice spans summing to 0, not 2π, refuting
the claim as stated over every input list. -/
theorem c4_counterexample :
    ((pie_paths [("A", (0 : ℚ))] REPO_COLORS).map
        (fun s => (s.deltaOverPi : ℝ) * Real.pi)).sum ≠ 2 * Real.pi := by
  have h : pie_paths [("A", (0 : ℚ))] REPO_COLORS
      = [⟨"A", "#f97316", 0, 0, -(1 / 2), -(1 / 2), false, 0⟩] := by
    norm_num [pie_paths, pie_go, pyTotal, pyRound, colorAt, REPO_COLORS,
      OTHER_COLOR]
    decide
  rw [h]
  simp only [List.map_cons, List.map_nil, List.sum_cons, List.sum_nil]
  push_cast
  intro hzero
  nlinarith [Real.pi_pos]

/-- Claim C4 (amended: provided the values do not sum to zero): the angular
spans of the slices of `pie_paths` sum to exactly 2π, independently of the
per-slice percentage rounding. -/
theorem c4_span_sum (data : List (String × ℚ)) (colors : List String)
    (h : (data.map Prod.snd).sum ≠ 0) :
    ((pie_paths data colors).map (fun s => (s.deltaOverPi : ℝ) * Real.pi)).sum
      = 2 * Real.pi := by
  have htot : pyTotal data = (data.map Prod.snd).sum := by
    rw [pyTotal, if_neg h]
  have hQ : ((pie_paths data colors).map Slice.deltaOverPi).sum = 2 := by
    rw [pie_paths, pie_go_delta_sum, htot, div_self h, one_mul]
  rw [sum_map_cast_mul_pi, hQ]
  norm_num

/-- Claim C4, witness: a one-slice chart spans the full circle. -/
theorem c4_witness :
    (([("A", (1 : ℚ))].map Prod.snd).sum ≠ 0) ∧
    ((pie_paths [("A", (1 : ℚ))] ACTIVITY_COLORS).map
        (fun s => (s.deltaOverPi : ℝ) * Real.pi)).sum = 2 * Real.pi :=
  ⟨by norm_num, c4_span_sum [("A", (1 : ℚ))] ACTIVITY_COLORS (by norm_num)⟩

/-- Claim C7: a slice's large-arc flag is set exactly when its angular span
strictly exceeds π (and is 0 at exactly π, since the comparison is strict). -/
theorem c7_large_arc_iff (data : List (String × ℚ)) (colors : List String)
    (s : Slice) (hs : s ∈ pie_paths data colors) :
    s.large = true ↔ Real.pi < (s.deltaOverPi : ℝ) * Real.pi := by
  obtain ⟨p, _, _, hdelta, hlarge, _⟩ := pie_go_mem hs
  rw [hlarge, ← hdelta, decide_eq_true_iff]
  constructor
  · intro h
    calc Real.pi = 1 * Real.pi := (one_mul _).symm
    _ < (s.deltaOverPi : ℝ) * Real.pi := by
        apply (mul_lt_mul_right Real.pi_pos).mpr
        exact_mod_cast h
  · intro h
    have h1 : (1 : ℝ) * Real.pi < (s.deltaOverPi : ℝ) * Real.pi := by
      rwa [one_mul]
    have : (1 : ℝ) < (s.deltaOverPi : ℝ) :=
      (mul_lt_mul_right Real.pi_pos).mp h1
    exact_mod_cast this

/-- Claim C7, witness: a single full-circle slice (span 2π > π) has its
large-arc flag set. -/
theorem c7_witness :
    ((⟨"A", "#f97316", 1, 2, -(1 / 2), 3 / 2, true, 100⟩ : Slice)
      ∈ pie_paths [("A", (1 : ℚ))] REPO_COLORS) ∧
    ((⟨"A", "#f97316", 1, 2, -(1 / 2), 3 / 2, true, 100⟩ : Slice).large = true
      ↔ Real.pi <
        ((⟨"A", "#f97316", 1, 2, -(1 / 2), 3 / 2, true, 100⟩ : Slice).deltaOverPi : ℝ)
          * Real.pi) := by
  have h : pie_paths [("A", (1 : ℚ))] REPO_COLORS
      = [⟨"A", "#f97316", 1, 2, -(1 / 2), 3 / 2, true, 100⟩] := by
    norm_num [pie_paths, pie_go, pyTotal, pyRound, colorAt, REPO_COLORS,
      OTHER_COLOR]
    decide
  have hmem : (⟨"A", "#f97316", 1, 2, -(1 / 2), 3 / 2, true, 100⟩ : Slice)
      ∈ pie_paths [("A", (1 : ℚ))] REPO_COLORS := by
    rw [h]
    exact List.mem_cons_self _ _
  exact ⟨hmem, c7_large_arc_iff [("A", (1 : ℚ))] REPO_COLORS _ hmem⟩

/-- Claim C8: the divisor of `pie_paths` is never zero (a zero total is
replaced by 1); consequently, on inputs with non-negative values summing to
zero, every fraction and every angular span is zero — no visible arcs. -/
theorem c8_total_fallback (data : List (String × ℚ)) (colors : List String) :
    pyTotal data ≠ 0 ∧
    ((∀ v ∈ data.map Prod.snd, 0 ≤ v) → (data.map Prod.snd).sum = 0 →
      ∀ s ∈ pie_paths data colors, s.frac = 0 ∧ s.deltaOverPi = 0) := by
  constructor
  · rw [pyTotal]
    split
    · exact one_ne_zero
    · next hs => exact hs
  · intro hnn hsum s hs
    obtain ⟨p, hp, hfrac, hdelta, _, _⟩ := pie_go_mem hs
    have hp0 : p.2 = 0 :=
      sum_zero_all_zero hnn hsum p.2 (List.mem_map_of_mem Prod.snd hp)
    constructor
    · rw [hfrac, hp0, zero_div]
    · rw [hdelta, hp0, zero_div, zero_mul]

/-- Claim C8, counterexample to the unconditional "every fraction is 0"
consequence: values 5 and −5 sum to zero, so the divisor falls back to 1,
but the fractions are 5 and −5, not 0. -/
theorem c8_counterexample :
    (([("A", (5 : ℚ)), ("B", -5)].map Prod.snd).sum = 0) ∧
    (pie_paths [("A", (5 : ℚ)), ("B", -5)] REPO_COLORS).map Slice.frac
      = [5, -5] := by
  constructor
  · norm_num
  · norm_num [pie_paths, pie_go, pyTotal, pyRound, colorAt, REPO_COLORS,
      OTHER_COLOR]
    try decide

/-- Claim C8, witness: a single zero-valued entry gives a nonzero divisor
and a slice of zero fraction and zero span. -/
theorem c8_witness :
    pyTotal [("A", (0 : ℚ))] ≠ 0 ∧
    ((⟨"A", "#06b6d4", 0, 0, -(1 / 2), -(1 / 2), false, 0⟩ : Slice).frac = 0 ∧
      (⟨"A", "#06b6d4", 0, 0, -(1 / 2), -(1 / 2), false, 0⟩ : Slice).deltaOverPi
        = 0) := by
  have h : pie_paths [("A", (0 : ℚ))] ACTIVITY_COLORS
      = [⟨"A", "#06b6d4", 0, 0, -(1 / 2), -(1 / 2), false, 0⟩] := by
    norm_num [pie_paths, pie_go, pyTotal, pyRound, colorAt, ACTIVITY_COLORS,
      OTHER_COLOR]
    decide
  have hmem : (⟨"A", "#06b6d4", 0, 0, -(1 / 2), -(1 / 2), false, 0⟩ : Slice)
      ∈ pie_paths [("A", (0 : ℚ))] ACTIVITY_COLORS := by
    rw [h]
    exact List.mem_cons_self _ _
  exact ⟨(c8_total_fallback [("A", (0 : ℚ))] ACTIVITY_COLORS).1,
    (c8_total_fallback [("A", (0 : ℚ))] ACTIVITY_COLORS).2
      (by norm_num) (by norm_num) _ hmem⟩

/-- Claim C9: the slice at index `i` displays `pyRound` of its fraction
times 100, where `pyRound` rounds to a nearest integer (error at most one
half) independently per slice; the displayed percentages of a chart need
not sum to 100, as the three-way equal chart (33+33+33 = 99) shows. -/
theorem c9_slice_percentages :
    (∀ (data : List (String × ℚ)) (colors : List String) (i : Nat)
        (s : Slice) (p : String × ℚ),
        (pie_paths data colors)[i]? = some s → data[i]? = some p →
        s.pct = pyRound (p.2 / pyTotal data * 100)) ∧
    (∀ q : ℚ, |(pyRound q : ℚ) - q| ≤ 1 / 2) ∧
    (((pie_paths [("A", 1), ("B", 1), ("C", 1)] REPO_COLORS).map
        Slice.pct).sum ≠ 100) := by
  refine ⟨?_, pyRound_nearest, ?_⟩
  · intro data colors i s p hs hp
    exact pie_go_pct colors (pyTotal data) data 0 _ i s p hs hp
  · norm_num [pie_paths, pie_go, pyTotal, pyRound, colorAt, REPO_COLORS,
      OTHER_COLOR]

/-- Claim C9, witness: the single slice of a one-entry chart displays
`pyRound` of its fraction times 100. -/
theorem c9_witness :
    ((pie_paths [("A", (2 : ℚ))] REPO_COLORS)[0]?
      = some ⟨"A", "#f97316", 1, 2, -(1 / 2), 3 / 2, true, 100⟩) ∧
    (⟨"A", "#f97316", 1, 2, -(1 / 2), 3 / 2, true, 100⟩ : Slice).pct
      = pyRound ((2 : ℚ) / pyTotal [("A", (2 : ℚ))] * 100) := by
  have h : pie_paths [("A", (2 : ℚ))] REPO_COLORS
      = [⟨"A", "#f97316", 1, 2, -(1 / 2), 3 / 2, true, 100⟩] := by
    norm_num [pie_paths, pie_go, pyTotal, pyRound, colorAt, REPO_COLORS,
      OTHER_COLOR]
    decide
  refine ⟨by rw [h]; simp, ?_⟩
  exact c9_slice_percentages.1 [("A", (2 : ℚ))] REPO_COLORS 0 _
    ("A", (2 : ℚ)) (by rw [h]; simp) rfl
